import Mathlib

/-!
Verification of the cycle-segmentation tool EXIFDataDailyReport.py.

The embedding follows src/EXIFDataDailyReport.py. Times of day are
represented as seconds since midnight (the Python code stores the string
HH:MM:SS and converts it with strptime at every use; sorting by the
parsed datetime and subtracting datetimes is exactly sorting and
subtracting the second counts). Durations are integers (seconds), as
produced by datetime subtraction.
-/

/-- One metadata record, the dict built at lines 38-44 of the source
(keys DateTaken, TimeTaken, Image, Pole). The Type key is constant per
category and omitted. -/
structure Rec where
  dateTaken : String
  timeTaken : Int
  image : String
  pole : String
deriving Repr, DecidableEq, Inhabited

/-- A record after the segmentation walk: the optional CycleCount label
(a string CYCLE n, line 57/74) and the optional CycleTotalHour duration
(lines 62/75), held in seconds. -/
structure ARec where
  base : Rec
  cycleCount : Option String
  cycleTotalHour : Option Int
deriving Repr, DecidableEq, Inhabited

/-- The mutable loop state of lines 51-53: cycle_count, cycle_start_time
and total_cycle_duration. -/
structure SegState where
  cycleCount : Nat
  cycleStartTime : Option Int
  totalCycleDuration : Int
deriving Repr, DecidableEq, Inhabited

/-- The aggregates the source prints and puts in the summary
(lines 85-99), together with the annotated records. -/
structure SegResult where
  records : List ARec
  cycleCount : Nat
  totalCycleDuration : Int
  totalTimeDifference : Int
deriving Repr, DecidableEq, Inhabited

/-- The ordering used by metadata.sort at line 48: compare the parsed
times of day. -/
def timeLE (a b : Rec) : Prop := a.timeTaken ≤ b.timeTaken

instance : DecidableRel timeLE := fun a b => inferInstanceAs (Decidable (a.timeTaken ≤ b.timeTaken))

instance : IsTotal Rec timeLE := ⟨fun a b => Int.le_total a.timeTaken b.timeTaken⟩

instance : IsTrans Rec timeLE := ⟨fun _ _ _ h1 h2 => le_trans h1 h2⟩

/-- metadata.sort(key=strptime of TimeTaken) at line 48. Python sort is
stable; insertion sort is the stable sort available here. -/
def sortByTime (l : List Rec) : List Rec := l.insertionSort timeLE

/-- The pairwise walk of lines 54-68. Given the current record, the rest
of the sorted list and the loop state, it returns the annotated versions
of every record except the last, the last record, and the state after
the loop. At each step the gap to the successor decides: a gap of at
least 60 seconds labels the predecessor with CYCLE cycle_count,
optionally records its duration, bumps the counter and clears the
marker; a smaller gap only sets the marker (once) to the predecessor
time. -/
def segLoop : Rec → List Rec → SegState → (List ARec × Rec × SegState)
  | prev, [], st => ([], prev, st)
  | prev, next :: rest, st =>
    if 60 ≤ next.timeTaken - prev.timeTaken then
      let dur : Option Int := st.cycleStartTime.map (fun t0 => prev.timeTaken - t0)
      let st' : SegState :=
        { cycleCount := st.cycleCount + 1
          cycleStartTime := none
          totalCycleDuration :=
            match st.cycleStartTime with
            | some t0 => st.totalCycleDuration + (prev.timeTaken - t0)
            | none => st.totalCycleDuration }
      let r := segLoop next rest st'
      (⟨prev, some ("CYCLE " ++ toString st.cycleCount), dur⟩ :: r.1, r.2)
    else
      let st' : SegState :=
        match st.cycleStartTime with
        | none => { st with cycleStartTime := some prev.timeTaken }
        | some _ => st
      let r := segLoop next rest st'
      (⟨prev, none, none⟩ :: r.1, r.2)

/-- Lines 70-76: if the marker is still set after the loop, the last
record closes the trailing cycle with the current label and its duration
is added to the running total; the counter is not bumped. -/
def finalStep (lastRec : Rec) (st : SegState) : ARec × SegState :=
  match st.cycleStartTime with
  | some t0 =>
    (⟨lastRec, some ("CYCLE " ++ toString st.cycleCount), some (lastRec.timeTaken - t0)⟩,
      { st with totalCycleDuration := st.totalCycleDuration + (lastRec.timeTaken - t0) })
  | none => (⟨lastRec, none, none⟩, st)

/-- Lines 51-89 applied to an already sorted list. An empty list makes
the Python code raise IndexError at line 79 (metadata[-1] on an empty
list), modelled by none. total_time_difference (lines 78-79) is read
from the walked list, first and last entries. -/
def processSorted : List Rec → Option SegResult
  | [] => none
  | first :: rest =>
    let w := segLoop first rest ⟨1, none, 0⟩
    let f := finalStep w.2.1 w.2.2
    let recsA := w.1 ++ [f.1]
    some
      { records := recsA
        cycleCount := f.2.cycleCount
        totalCycleDuration := f.2.totalCycleDuration
        totalTimeDifference :=
          (recsA.getLastD ⟨first, none, none⟩).base.timeTaken
            - (recsA.headD ⟨first, none, none⟩).base.timeTaken }

/-- The whole metadata stage of process_folder, lines 47-89: sort, walk,
close the trailing cycle, compute the aggregates. -/
def processMetadata (l : List Rec) : Option SegResult := processSorted (sortByTime l)

/-! Concrete scenario of claim C2 and the degenerate inputs of claim C6. -/

/-- The four records of the scenario, times 09:00:00, 09:00:30, 09:05:00
and 09:05:20 as seconds since midnight. -/
def c2list : List Rec :=
  [⟨"2023:01:01", 32400, "a.jpg", "P1"⟩,
   ⟨"2023:01:01", 32430, "b.jpg", "P1"⟩,
   ⟨"2023:01:01", 32700, "c.jpg", "P1"⟩,
   ⟨"2023:01:01", 32720, "d.jpg", "P1"⟩]

/-- C2 counterexample: on the scenario input the reported cycle count is
not 3. The counter starts at 1, the single 60s boundary bumps it to 2,
and the trailing-cycle block does not bump it. -/
theorem c2_cycleCount_cex : (processMetadata c2list).map SegResult.cycleCount ≠ some 3 := by
  decide

/-- C2 (amended): on the scenario input, segmentation labels 09:00:30
with CYCLE 1 and duration 30s, leaves 09:00:00 and 09:05:00 unlabeled,
labels 09:05:20 with CYCLE 2 and duration 20s, reports
totalCycleDuration 50s, totalTimeDifference 320s, and a cycleCount
of 2 (not 3). -/
theorem c2_scenario :
    processMetadata c2list =
      some
        { records :=
            [⟨⟨"2023:01:01", 32400, "a.jpg", "P1"⟩, none, none⟩,
             ⟨⟨"2023:01:01", 32430, "b.jpg", "P1"⟩, some "CYCLE 1", some 30⟩,
             ⟨⟨"2023:01:01", 32700, "c.jpg", "P1"⟩, none, none⟩,
             ⟨⟨"2023:01:01", 32720, "d.jpg", "P1"⟩, some "CYCLE 2", some 20⟩]
          cycleCount := 2
          totalCycleDuration := 50
          totalTimeDifference := 320 } := by
  decide

/-- A single record, used to refute the one-element half of claim C6. -/
def c6rec : Rec := ⟨"2023:01:01", 32400, "a.jpg", "P1"⟩

/-- C6 counterexample: a one-element category does not fault. The
pairwise walk is skipped, metadata[-1] and metadata[0] both exist, and
the run completes with a result. -/
theorem c6_singleton_cex : (processMetadata [c6rec]).isSome = true := by
  decide

/-- C6 (amended): the empty category faults (metadata[-1] of line 79
indexes an empty list), while a one-element category completes without a
pairwise walk: no label, no duration, cycleCount 1, zero
totalCycleDuration and zero totalTimeDifference. -/
theorem c6_degenerate :
    processMetadata [] = none ∧
      ∀ r : Rec, processMetadata [r] = some ⟨[⟨r, none, none⟩], 1, 0, 0⟩ := by
  refine ⟨rfl, fun r => ?_⟩
  show processSorted [r] = _
  simp [processSorted, segLoop, finalStep]

/-! Structural facts about the walk. -/

/-- The walk annotates one record per adjacent pair: all records except
the last one. -/
theorem segLoop_length (prev : Rec) (rest : List Rec) (st : SegState) :
    (segLoop prev rest st).1.length = rest.length := by
  induction rest generalizing prev st with
  | nil => rfl
  | cons next rest ih =>
    rw [segLoop]
    split
    · simp [ih]
    · simp [ih]

/-- The walk does not change the records themselves, only annotates
them: the bases of the annotated list followed by the returned last
record are exactly the input records. -/
theorem segLoop_map_base (prev : Rec) (rest : List Rec) (st : SegState) :
    (segLoop prev rest st).1.map ARec.base ++ [(segLoop prev rest st).2.1] = prev :: rest := by
  induction rest generalizing prev st with
  | nil => rfl
  | cons next rest ih =>
    rw [segLoop]
    split
    · simpa using ih next _
    · simpa using ih next _

/-- The record returned as the last one is the last input record. -/
theorem segLoop_lastRec (prev : Rec) (rest : List Rec) (st : SegState) :
    (segLoop prev rest st).2.1 = rest.getLastD prev := by
  induction rest generalizing prev st with
  | nil => rfl
  | cons next rest ih =>
    rw [segLoop, List.getLastD_cons]
    split
    · simpa using ih next _
    · simpa using ih next _

/-- The walk changes no field of the state except as described: the
running total after the loop is the total before plus the sum of every
duration the loop assigned. -/
theorem segLoop_total (prev : Rec) (rest : List Rec) (st : SegState) :
    (segLoop prev rest st).2.2.totalCycleDuration =
      st.totalCycleDuration +
        ((segLoop prev rest st).1.map (fun a => a.cycleTotalHour.getD 0)).sum := by
  induction rest generalizing prev st with
  | nil => simp [segLoop]
  | cons next rest ih =>
    rw [segLoop]
    split
    · rcases h0 : st.cycleStartTime with _ | t0
      · simp [ih next, h0]
      · simp [ih next, h0]
        ring
    · rcases h0 : st.cycleStartTime with _ | t0
      · simp [ih next, h0]
      · simp [ih next, h0]

/-! Indexed view of the sorted time sequence. -/

/-- The gap between positions j and j+1 of a time sequence (line 55 of
the source, for the pair at indices j and j+1 of the sorted list). -/
def gapAt (ts : List Int) (j : Nat) : Int := ts.getD (j + 1) 0 - ts.getD j 0

/-- Number of boundary pairs (gap at least 60s) among the j gaps at
positions p, p+1, ..., p+j-1. -/
def bRange (ts : List Int) : Nat → Nat → Nat
  | _, 0 => 0
  | p, j + 1 => (if 60 ≤ gapAt ts p then 1 else 0) + bRange ts (p + 1) j

/-- Reading one element out of a drop equation. -/
theorem getD_of_drop {α : Type} [Inhabited α] (ts : List α) (p : Nat) (x : α) (xs : List α)
    (h : ts.drop p = x :: xs) : ts.getD p default = x := by
  rw [List.getD_eq_getElem?_getD]
  have h0 : ts[p]? = some x := by
    have h1 := List.getElem?_drop ts p 0
    rw [h] at h1
    simpa using h1.symm
  rw [h0]
  rfl

/-- Advancing a drop equation by one position. -/
theorem drop_succ_of_drop {α : Type} (ts : List α) (p : Nat) (x : α) (xs : List α)
    (h : ts.drop p = x :: xs) : ts.drop (p + 1) = xs := by
  rw [← List.tail_drop, h]
  rfl

/-- Core lemma for claim C1. Along the walk, the annotated record at
local position j (global position p + j) carries the label
CYCLE (cycle_count + number of earlier boundaries seen by this walk)
exactly when its gap to the successor is at least 60 seconds, and no
label otherwise. -/
theorem segLoop_label_aux (ts : List Int) (rest : List Rec) :
    ∀ (prev : Rec) (p : Nat) (st : SegState),
      ts.drop p = prev.timeTaken :: rest.map Rec.timeTaken →
      ∀ j, j < rest.length →
        ((segLoop prev rest st).1.getD j default).cycleCount =
          if 60 ≤ gapAt ts (p + j) then
            some ("CYCLE " ++ toString (st.cycleCount + bRange ts p j))
          else none := by
  induction rest with
  | nil =>
    intro prev p st hts j hj
    exact absurd hj (by simp)
  | cons next rest ih =>
    intro prev p st hts j hj
    have hnext : ts.drop (p + 1) = next.timeTaken :: rest.map Rec.timeTaken := by
      have h1 := drop_succ_of_drop _ _ _ _ hts
      simpa using h1
    have hgap : gapAt ts p = next.timeTaken - prev.timeTaken := by
      have h1 : ts.getD p 0 = prev.timeTaken := getD_of_drop _ _ _ _ hts
      have h2 : ts.getD (p + 1) 0 = next.timeTaken := getD_of_drop _ _ _ _ hnext
      unfold gapAt
      rw [h1, h2]
    rw [segLoop]
    by_cases hb : 60 ≤ next.timeTaken - prev.timeTaken
    · rw [if_pos hb]
      cases j with
      | zero =>
        have hcond : 60 ≤ gapAt ts p := by rw [hgap]; exact hb
        simp [hcond, bRange]
      | succ j' =>
        have hj' : j' < rest.length := by simpa using Nat.lt_of_succ_lt_succ hj
        have ihx := ih next (p + 1)
          ⟨st.cycleCount + 1, none,
            match st.cycleStartTime with
            | some t0 => st.totalCycleDuration + (prev.timeTaken - t0)
            | none => st.totalCycleDuration⟩ hnext j' hj'
        have hidx : p + (j' + 1) = (p + 1) + j' := by omega
        have hbr : bRange ts p (j' + 1) = 1 + bRange ts (p + 1) j' := by
          rw [bRange, if_pos (by rw [hgap]; exact hb)]
        simp only [List.getD_cons_succ]
        rw [hidx, hbr]
        simp only [ihx]
        have harith : st.cycleCount + (1 + bRange ts (p + 1) j') =
            st.cycleCount + 1 + bRange ts (p + 1) j' := by omega
        rw [harith]
    · rw [if_neg hb]
      cases j with
      | zero =>
        have hcond : ¬ 60 ≤ gapAt ts p := by rw [hgap]; exact hb
        simp [hcond]
      | succ j' =>
        have hj' : j' < rest.length := by simpa using Nat.lt_of_succ_lt_succ hj
        have ihx := ih next (p + 1)
          (match st.cycleStartTime with
            | none => { st with cycleStartTime := some prev.timeTaken }
            | some _ => st) hnext j' hj'
        have hidx : p + (j' + 1) = (p + 1) + j' := by omega
        have hbr : bRange ts p (j' + 1) = bRange ts (p + 1) j' := by
          rw [bRange, if_neg (by rw [hgap]; exact hb)]
          omega
        simp only [List.getD_cons_succ]
        rw [hidx, hbr]
        have hcountx : (match st.cycleStartTime with
            | none => { st with cycleStartTime := some prev.timeTaken }
            | some _ => st : SegState).cycleCount = st.cycleCount := by
          rcases st.cycleStartTime <;> rfl
        rw [ihx, hcountx]

/-- C1: for every record list, over the sorted time sequence the walk
labels the predecessor of a pair exactly when the gap of the pair is at
least 60 seconds: position j among the first length-1 records carries
the label CYCLE n, with n equal to one plus the number of earlier
boundary pairs (the counter is bumped once per boundary), when
gapAt j is at least 60, and carries no label from the walk otherwise. -/
theorem c1_boundary_labels (l : List Rec) (res : SegResult)
    (h : processMetadata l = some res) (j : Nat) (hj : j + 1 < res.records.length) :
    (res.records.getD j default).cycleCount =
      if 60 ≤ gapAt ((sortByTime l).map Rec.timeTaken) j then
        some ("CYCLE " ++ toString (1 + bRange ((sortByTime l).map Rec.timeTaken) 0 j))
      else none := by
  cases hs : sortByTime l with
  | nil =>
    rw [processMetadata, hs] at h
    exact absurd h (by simp [processSorted])
  | cons first rest =>
    rw [processMetadata, hs] at h
    rw [processSorted] at h
    simp only [Option.some.injEq] at h
    have hrec : res.records =
        (segLoop first rest ⟨1, none, 0⟩).1 ++
          [(finalStep (segLoop first rest ⟨1, none, 0⟩).2.1
              (segLoop first rest ⟨1, none, 0⟩).2.2).1] := by
      rw [← h]
    have hlen : (segLoop first rest ⟨1, none, 0⟩).1.length = rest.length :=
      segLoop_length first rest ⟨1, none, 0⟩
    have hjr : j < rest.length := by
      rw [hrec] at hj
      simp [hlen] at hj
      omega
    have hget : res.records.getD j default = (segLoop first rest ⟨1, none, 0⟩).1.getD j default := by
      rw [hrec]
      exact List.getD_append _ _ _ j (by rw [hlen]; exact hjr)
    have hts : ((sortByTime l).map Rec.timeTaken).drop 0 =
        first.timeTaken :: rest.map Rec.timeTaken := by
      rw [hs]
      simp
    have := segLoop_label_aux ((sortByTime l).map Rec.timeTaken) rest first 0
      ⟨1, none, 0⟩ hts j hjr
    rw [hget, this]
    simp [hs]

/-- Two records 100 seconds apart: a boundary pair. -/
def c1wlist : List Rec :=
  [⟨"2023:01:01", 0, "a.jpg", "P"⟩, ⟨"2023:01:01", 100, "b.jpg", "P"⟩]

/-- The segmentation result on c1wlist. -/
def c1wres : SegResult :=
  ⟨[⟨⟨"2023:01:01", 0, "a.jpg", "P"⟩, some "CYCLE 1", none⟩,
    ⟨⟨"2023:01:01", 100, "b.jpg", "P"⟩, none, none⟩], 2, 0, 100⟩

/-- Witness for c1_boundary_labels at a concrete input. -/
theorem c1_boundary_labels_witness :
    processMetadata c1wlist = some c1wres ∧ 0 + 1 < c1wres.records.length ∧
      (c1wres.records.getD 0 default).cycleCount =
        (if 60 ≤ gapAt ((sortByTime c1wlist).map Rec.timeTaken) 0 then
          some ("CYCLE " ++ toString (1 + bRange ((sortByTime c1wlist).map Rec.timeTaken) 0 0))
        else none) :=
  ⟨by decide, by decide, c1_boundary_labels c1wlist c1wres (by decide) 0 (by decide)⟩

/-! Duration bookkeeping for claim C3. -/

/-- Invariant of cycle_start_time at global position p of the sorted
list: when it is unset, position p starts a fresh run (it is position 0
or follows a boundary); when it holds t0, then t0 is the time at some
position s that starts the sub-60s run reaching up to p. -/
def StartInv (ts : List Int) (p : Nat) : Option Int → Prop
  | none => p = 0 ∨ 60 ≤ gapAt ts (p - 1)
  | some t0 =>
    ∃ s, s < p ∧ t0 = ts.getD s 0 ∧
      (∀ k, s ≤ k → k < p → gapAt ts k < 60) ∧ (s = 0 ∨ 60 ≤ gapAt ts (s - 1))

/-- Core lemma for claim C3. Every duration the walk assigns sits on a
boundary record and equals the time at that record minus the time at
the start of its maximal sub-60s run, and the marker invariant is
maintained to the end of the walk. -/
theorem segLoop_dur_aux (ts : List Int) (rest : List Rec) :
    ∀ (prev : Rec) (p : Nat) (st : SegState),
      ts.drop p = prev.timeTaken :: rest.map Rec.timeTaken →
      StartInv ts p st.cycleStartTime →
      (∀ j, j < rest.length → ∀ d : Int,
          ((segLoop prev rest st).1.getD j default).cycleTotalHour = some d →
          60 ≤ gapAt ts (p + j) ∧
            ∃ s, s ≤ p + j ∧ d = ts.getD (p + j) 0 - ts.getD s 0 ∧
              (∀ k, s ≤ k → k < p + j → gapAt ts k < 60) ∧
              (s = 0 ∨ 60 ≤ gapAt ts (s - 1))) ∧
        StartInv ts (p + rest.length) (segLoop prev rest st).2.2.cycleStartTime := by
  induction rest with
  | nil =>
    intro prev p st hts hinv
    refine ⟨fun j hj => absurd hj (by simp), ?_⟩
    simpa [segLoop] using hinv
  | cons next rest ih =>
    intro prev p st hts hinv
    have hnext : ts.drop (p + 1) = next.timeTaken :: rest.map Rec.timeTaken := by
      have h1 := drop_succ_of_drop _ _ _ _ hts
      simpa using h1
    have hprevt : ts.getD p 0 = prev.timeTaken := getD_of_drop _ _ _ _ hts
    have hnextt : ts.getD (p + 1) 0 = next.timeTaken := getD_of_drop _ _ _ _ hnext
    have hgap : gapAt ts p = next.timeTaken - prev.timeTaken := by
      unfold gapAt
      rw [hprevt, hnextt]
    have hlen : p + (next :: rest).length = (p + 1) + rest.length := by
      simp
      omega
    by_cases hb : 60 ≤ next.timeTaken - prev.timeTaken
    · rcases h0 : st.cycleStartTime with _ | t0
      · -- boundary without a marker: no duration on the head record
        have hinv' : StartInv ts (p + 1) none := by
          right
          simpa [hgap] using hb
        have ihx := ih next (p + 1)
          ⟨st.cycleCount + 1, none, st.totalCycleDuration⟩ hnext hinv'
        constructor
        · intro j hj d hd
          cases j with
          | zero =>
            rw [segLoop, if_pos hb] at hd
            simp [h0] at hd
          | succ j' =>
            have hj' : j' < rest.length := by simpa using Nat.lt_of_succ_lt_succ hj
            rw [segLoop, if_pos hb] at hd
            simp only [h0, List.getD_cons_succ] at hd
            have e1 : p + (j' + 1) = (p + 1) + j' := by omega
            rw [e1]
            exact ihx.1 j' hj' d hd
        · rw [segLoop, if_pos hb]
          simp only [h0]
          rw [hlen]
          exact ihx.2
      · -- boundary with a marker: the head record gets a duration
        have hinv' : StartInv ts (p + 1) none := by
          right
          simpa [hgap] using hb
        have ihx := ih next (p + 1)
          ⟨st.cycleCount + 1, none, st.totalCycleDuration + (prev.timeTaken - t0)⟩ hnext hinv'
        rw [h0] at hinv
        obtain ⟨s, hsp, ht0, hrun, hbnd⟩ := hinv
        constructor
        · intro j hj d hd
          cases j with
          | zero =>
            rw [segLoop, if_pos hb] at hd
            simp [h0] at hd
            refine ⟨by simpa [hgap] using hb, s, by omega, ?_, ?_, hbnd⟩
            · rw [Nat.add_zero, hprevt, ← ht0]
              omega
            · intro k hk1 hk2
              exact hrun k hk1 (by omega)
          | succ j' =>
            have hj' : j' < rest.length := by simpa using Nat.lt_of_succ_lt_succ hj
            rw [segLoop, if_pos hb] at hd
            simp only [h0, List.getD_cons_succ] at hd
            have e1 : p + (j' + 1) = (p + 1) + j' := by omega
            rw [e1]
            exact ihx.1 j' hj' d hd
        · rw [segLoop, if_pos hb]
          simp only [h0]
          rw [hlen]
          exact ihx.2
    · rcases h0 : st.cycleStartTime with _ | t0
      · -- small gap, marker unset: it is set to the predecessor time
        rw [h0] at hinv
        have hinv' : StartInv ts (p + 1) (some prev.timeTaken) := by
          refine ⟨p, Nat.lt_succ_self p, hprevt.symm, ?_, hinv⟩
          intro k hk1 hk2
          have hk : k = p := by omega
          subst hk
          rw [hgap]
          omega
        have ihx := ih next (p + 1)
          { st with cycleStartTime := some prev.timeTaken } hnext hinv'
        constructor
        · intro j hj d hd
          cases j with
          | zero =>
            rw [segLoop, if_neg hb] at hd
            simp [h0] at hd
          | succ j' =>
            have hj' : j' < rest.length := by simpa using Nat.lt_of_succ_lt_succ hj
            rw [segLoop, if_neg hb] at hd
            simp only [h0, List.getD_cons_succ] at hd
            have e1 : p + (j' + 1) = (p + 1) + j' := by omega
            rw [e1]
            exact ihx.1 j' hj' d hd
        · rw [segLoop, if_neg hb]
          simp only [h0]
          rw [hlen]
          exact ihx.2
      · -- small gap, marker already set: the run extends
        rw [h0] at hinv
        obtain ⟨s, hsp, ht0, hrun, hbnd⟩ := hinv
        have hinv' : StartInv ts (p + 1) (some t0) := by
          refine ⟨s, by omega, ht0, ?_, hbnd⟩
          intro k hk1 hk2
          by_cases hkp : k < p
          · exact hrun k hk1 hkp
          · have hk : k = p := by omega
            subst hk
            rw [hgap]
            omega
        have ihx := ih next (p + 1) st hnext (by rw [h0]; exact hinv')
        constructor
        · intro j hj d hd
          cases j with
          | zero =>
            rw [segLoop, if_neg hb] at hd
            simp [h0] at hd
          | succ j' =>
            have hj' : j' < rest.length := by simpa using Nat.lt_of_succ_lt_succ hj
            rw [segLoop, if_neg hb] at hd
            simp only [h0, List.getD_cons_succ] at hd
            have e1 : p + (j' + 1) = (p + 1) + j' := by omega
            rw [e1]
            exact ihx.1 j' hj' d hd
        · rw [segLoop, if_neg hb]
          simp only [h0]
          rw [hlen]
          exact ihx.2

/-- The time at the last position of the sorted sequence is the time of
the last record. -/
theorem getD_map_last (first : Rec) (rest : List Rec) :
    ((first :: rest).map Rec.timeTaken).getD rest.length 0 = (rest.getLastD first).timeTaken := by
  induction rest generalizing first with
  | nil => rfl
  | cons b bs ih =>
    rw [List.getLastD_cons]
    simpa using ih b

/-- C3: the reported totalCycleDuration is the sum of every duration
assigned to a record, and every assigned duration d at position j of the
sorted list equals time j minus the time at the start s of the maximal
sub-60s run ending at j (the cycle-start marker, set once per cycle at
the first sub-60s gap); moreover j is a cycle end: the last record, or a
record whose gap to the successor is at least 60 seconds. -/
theorem c3_durations (l : List Rec) (res : SegResult)
    (h : processMetadata l = some res) :
    res.totalCycleDuration = (res.records.map (fun a => a.cycleTotalHour.getD 0)).sum ∧
      ∀ j, j < res.records.length → ∀ d : Int,
        (res.records.getD j default).cycleTotalHour = some d →
        ∃ s, s ≤ j ∧
          d = ((sortByTime l).map Rec.timeTaken).getD j 0 -
              ((sortByTime l).map Rec.timeTaken).getD s 0 ∧
          (∀ k, s ≤ k → k < j → gapAt ((sortByTime l).map Rec.timeTaken) k < 60) ∧
          (s = 0 ∨ 60 ≤ gapAt ((sortByTime l).map Rec.timeTaken) (s - 1)) ∧
          (j = res.records.length - 1 ∨ 60 ≤ gapAt ((sortByTime l).map Rec.timeTaken) j) := by
  cases hs : sortByTime l with
  | nil =>
    rw [processMetadata, hs] at h
    exact absurd h (by simp [processSorted])
  | cons first rest =>
    rw [processMetadata, hs, processSorted] at h
    simp only [Option.some.injEq] at h
    have hrec : res.records =
        (segLoop first rest ⟨1, none, 0⟩).1 ++
          [(finalStep (segLoop first rest ⟨1, none, 0⟩).2.1
              (segLoop first rest ⟨1, none, 0⟩).2.2).1] := by
      rw [← h]
    have htot : res.totalCycleDuration =
        (finalStep (segLoop first rest ⟨1, none, 0⟩).2.1
          (segLoop first rest ⟨1, none, 0⟩).2.2).2.totalCycleDuration := by
      rw [← h]
    have hlenw : (segLoop first rest ⟨1, none, 0⟩).1.length = rest.length :=
      segLoop_length first rest ⟨1, none, 0⟩
    have hts : (((first :: rest).map Rec.timeTaken)).drop 0 =
        first.timeTaken :: rest.map Rec.timeTaken := by
      simp
    have hinv0 : StartInv ((first :: rest).map Rec.timeTaken) 0
        (⟨1, none, 0⟩ : SegState).cycleStartTime := Or.inl rfl
    have aux := segLoop_dur_aux ((first :: rest).map Rec.timeTaken) rest first 0
      ⟨1, none, 0⟩ hts hinv0
    constructor
    · -- the total is the sum of the assigned durations
      have ht := segLoop_total first rest ⟨1, none, 0⟩
      rw [htot, hrec]
      rcases hfs : (segLoop first rest ⟨1, none, 0⟩).2.2.cycleStartTime with _ | t0
      · simp [finalStep, hfs, ht]
      · simp [finalStep, hfs, ht]
    · intro j hj d hd
      by_cases hjl : j < rest.length
      · have hd' : ((segLoop first rest ⟨1, none, 0⟩).1.getD j default).cycleTotalHour =
            some d := by
          rw [hrec] at hd
          rwa [List.getD_append _ _ _ j (by rw [hlenw]; exact hjl)] at hd
        have hx := aux.1 j hjl d hd'
        rw [Nat.zero_add] at hx
        obtain ⟨hgap60, s, hs1, hs2, hs3, hs4⟩ := hx
        exact ⟨s, hs1, hs2, hs3, hs4, Or.inr hgap60⟩
      · have hjlen : j < rest.length + 1 := by
          rw [hrec] at hj
          simpa [hlenw] using hj
        have hjeq : j = rest.length := by omega
        subst hjeq
        have hd' : (res.records.getD rest.length default) =
            (finalStep (segLoop first rest ⟨1, none, 0⟩).2.1
              (segLoop first rest ⟨1, none, 0⟩).2.2).1 := by
          rw [hrec, List.getD_append_right _ _ _ _ (by rw [hlenw])]
          rw [hlenw]
          simp
        rw [hd'] at hd
        have hfin := aux.2
        rw [Nat.zero_add] at hfin
        rcases hfs : (segLoop first rest ⟨1, none, 0⟩).2.2.cycleStartTime with _ | t0
        · rw [finalStep] at hd
          simp [hfs] at hd
        · rw [finalStep] at hd
          simp only [hfs, Option.some.injEq] at hd
          rw [hfs] at hfin
          obtain ⟨s, hsl, ht0, hrun, hbnd⟩ := hfin
          have hreclen : res.records.length = rest.length + 1 := by
            rw [hrec]
            simp [hlenw]
          refine ⟨s, by omega, ?_, ?_, hbnd, Or.inl (by omega)⟩
          · have hlast : ((first :: rest).map Rec.timeTaken).getD rest.length 0 =
                (segLoop first rest ⟨1, none, 0⟩).2.1.timeTaken := by
              rw [segLoop_lastRec, getD_map_last]
            rw [hlast, ← ht0]
            omega
          · intro k hk1 hk2
            exact hrun k hk1 hk2

/-- Three records: a sub-60s pair then a boundary. -/
def c3wlist : List Rec :=
  [⟨"2023:01:01", 0, "a.jpg", "P"⟩,
   ⟨"2023:01:01", 30, "b.jpg", "P"⟩,
   ⟨"2023:01:01", 100, "c.jpg", "P"⟩]

/-- The segmentation result on c3wlist. -/
def c3wres : SegResult :=
  ⟨[⟨⟨"2023:01:01", 0, "a.jpg", "P"⟩, none, none⟩,
    ⟨⟨"2023:01:01", 30, "b.jpg", "P"⟩, some "CYCLE 1", some 30⟩,
    ⟨⟨"2023:01:01", 100, "c.jpg", "P"⟩, none, none⟩], 2, 30, 100⟩

/-- Witness for c3_durations at a concrete input. -/
theorem c3_durations_witness :
    c3wres.totalCycleDuration = (c3wres.records.map (fun a => a.cycleTotalHour.getD 0)).sum :=
  (c3_durations c3wlist c3wres (by decide)).1

/-- The trailing-cycle step keeps the record itself unchanged. -/
theorem finalStep_base (r : Rec) (st : SegState) : (finalStep r st).1.base = r := by
  unfold finalStep
  split
  · rfl
  · rfl

/-- C4: if after the pairwise walk the cycle-start marker still holds a
time t0, the last record of the output carries the current cycle label
CYCLE cycle_count (the counter is not incremented), its duration is the
last time minus t0, and that duration is added to the running total. -/
theorem c4_trailing_cycle (l : List Rec) (first : Rec) (rest : List Rec)
    (hsort : sortByTime l = first :: rest) (t0 : Int)
    (hstart : (segLoop first rest ⟨1, none, 0⟩).2.2.cycleStartTime = some t0)
    (res : SegResult) (hres : processMetadata l = some res) :
    res.records.getLastD default =
      ⟨(segLoop first rest ⟨1, none, 0⟩).2.1,
        some ("CYCLE " ++ toString (segLoop first rest ⟨1, none, 0⟩).2.2.cycleCount),
        some ((segLoop first rest ⟨1, none, 0⟩).2.1.timeTaken - t0)⟩ ∧
      res.cycleCount = (segLoop first rest ⟨1, none, 0⟩).2.2.cycleCount ∧
      res.totalCycleDuration =
        (segLoop first rest ⟨1, none, 0⟩).2.2.totalCycleDuration +
          ((segLoop first rest ⟨1, none, 0⟩).2.1.timeTaken - t0) := by
  rw [processMetadata, hsort, processSorted] at hres
  simp only [Option.some.injEq] at hres
  refine ⟨?_, ?_, ?_⟩
  · rw [← hres]
    simp only [List.getLastD_concat]
    unfold finalStep
    rw [hstart]
  · rw [← hres]
    unfold finalStep
    rw [hstart]
  · rw [← hres]
    unfold finalStep
    rw [hstart]

/-- Two records 10 seconds apart: the walk ends with the marker set. -/
def c4r0 : Rec := ⟨"2023:01:01", 0, "a.jpg", "P"⟩

/-- Second record of the C4 witness list. -/
def c4r1 : Rec := ⟨"2023:01:01", 10, "b.jpg", "P"⟩

/-- The segmentation result on [c4r0, c4r1]. -/
def c4wres : SegResult :=
  ⟨[⟨c4r0, none, none⟩, ⟨c4r1, some "CYCLE 1", some 10⟩], 1, 10, 10⟩

/-- Witness for c4_trailing_cycle at a concrete input. -/
theorem c4_trailing_cycle_witness :
    c4wres.cycleCount = (segLoop c4r0 [c4r1] ⟨1, none, 0⟩).2.2.cycleCount :=
  (c4_trailing_cycle [c4r0, c4r1] c4r0 [c4r1] (by decide) 0 (by decide)
    c4wres (by decide)).2.1

/-- C5: totalTimeDifference is the last sorted time minus the first
sorted time; it depends only on the endpoints of the sorted list, not on
the cycle segmentation. -/
theorem c5_total_time (l : List Rec) (first : Rec) (rest : List Rec)
    (hsort : sortByTime l = first :: rest)
    (res : SegResult) (h : processMetadata l = some res) :
    res.totalTimeDifference = (rest.getLastD first).timeTaken - first.timeTaken := by
  rw [processMetadata, hsort, processSorted] at h
  simp only [Option.some.injEq] at h
  rw [← h]
  have hlastb :
      ((((segLoop first rest ⟨1, none, 0⟩).1 ++
          [(finalStep (segLoop first rest ⟨1, none, 0⟩).2.1
              (segLoop first rest ⟨1, none, 0⟩).2.2).1]).getLastD
            ⟨first, none, none⟩).base).timeTaken = (rest.getLastD first).timeTaken := by
    rw [List.getLastD_concat, finalStep_base, segLoop_lastRec]
  have hheadb :
      ((((segLoop first rest ⟨1, none, 0⟩).1 ++
          [(finalStep (segLoop first rest ⟨1, none, 0⟩).2.1
              (segLoop first rest ⟨1, none, 0⟩).2.2).1]).headD
            ⟨first, none, none⟩).base).timeTaken = first.timeTaken := by
    have hb := segLoop_map_base first rest ⟨1, none, 0⟩
    cases hw : (segLoop first rest ⟨1, none, 0⟩).1 with
    | nil =>
      rw [hw] at hb
      simp only [List.map_nil, List.nil_append, List.cons.injEq] at hb
      simp [finalStep_base, hb.1]
    | cons a tl =>
      rw [hw] at hb
      simp only [List.map_cons, List.cons_append, List.cons.injEq] at hb
      simp [hb.1]
  rw [hlastb, hheadb]

/-- Witness for c5_total_time at a concrete input. -/
theorem c5_total_time_witness :
    c4wres.totalTimeDifference = (([c4r1].getLastD c4r0)).timeTaken - c4r0.timeTaken := by
  have h := c5_total_time [c4r0, c4r1] c4r0 [c4r1] (by decide) c4wres (by decide)
  exact h

/-- C7: segmentation is idempotent. Running sort-and-segment on the
records of a previous run (their prior labels and durations ignored by
taking the bare records) returns exactly the same result: the same
labels, durations and aggregates. -/
theorem c7_idempotent (l : List Rec) (res : SegResult)
    (h : processMetadata l = some res) :
    processMetadata (res.records.map ARec.base) = some res := by
  cases hs : sortByTime l with
  | nil =>
    rw [processMetadata, hs] at h
    exact absurd h (by simp [processSorted])
  | cons first rest =>
    rw [processMetadata, hs, processSorted] at h
    simp only [Option.some.injEq] at h
    have hmap : res.records.map ARec.base = first :: rest := by
      rw [← h]
      simp only [List.map_append, List.map_cons, List.map_nil]
      rw [finalStep_base]
      exact segLoop_map_base first rest ⟨1, none, 0⟩
    rw [hmap]
    have hsorted : List.Sorted timeLE (first :: rest) := by
      rw [← hs]
      exact List.sorted_insertionSort timeLE l
    have hfix : sortByTime (first :: rest) = first :: rest :=
      List.Sorted.insertionSort_eq hsorted
    rw [processMetadata, hfix, processSorted]
    simp only [Option.some.injEq]
    exact h

/-- Three records: a boundary pair then a sub-60s pair. -/
def c7wlist : List Rec :=
  [⟨"2023:01:01", 0, "a.jpg", "P"⟩,
   ⟨"2023:01:01", 100, "b.jpg", "P"⟩,
   ⟨"2023:01:01", 130, "c.jpg", "P"⟩]

/-- The segmentation result on c7wlist. -/
def c7wres : SegResult :=
  ⟨[⟨⟨"2023:01:01", 0, "a.jpg", "P"⟩, some "CYCLE 1", none⟩,
    ⟨⟨"2023:01:01", 100, "b.jpg", "P"⟩, none, none⟩,
    ⟨⟨"2023:01:01", 130, "c.jpg", "P"⟩, some "CYCLE 2", some 30⟩], 2, 30, 130⟩

/-- Witness for c7_idempotent at a concrete input. -/
theorem c7_idempotent_witness :
    processMetadata (c7wres.records.map ARec.base) = some c7wres :=
  c7_idempotent c7wlist c7wres (by decide)

/-! Metadata extraction, lines 26-45 of the source (claim C8). -/

/-- An image file as seen by the extraction loop: its path, the base
name of its folder (the Pole), and the DateTimeOriginal tag. The tag is
none when Image.open or _getexif raises (the except block of lines
32-34 logs the error and leaves date_taken None) or when tag 36867 is
absent. -/
structure ImageFile where
  path : String
  pole : String
  dateTakenTag : Option String
deriving Repr, DecidableEq

/-- A metadata dict as built at lines 38-44, with the date and time
still the raw strings split from the tag. -/
structure Props where
  dateTaken : String
  timeTaken : String
  image : String
  pole : String
  typ : String
deriving Repr, DecidableEq

/-- Helper for pySplit: walk the characters, accumulating the current
piece reversed, emitting a piece at each whitespace run. -/
def pySplitChars : List Char → List Char → List String
  | [], acc => if acc = [] then [] else [String.mk acc.reverse]
  | c :: cs, acc =>
    if c.isWhitespace then
      if acc = [] then pySplitChars cs []
      else String.mk acc.reverse :: pySplitChars cs []
    else pySplitChars cs (c :: acc)

/-- Python str.split() with no arguments: split on whitespace runs and
drop empty pieces. -/
def pySplit (s : String) : List String := pySplitChars s.data []

/-- Lines 27-45 for one image: an exception during the EXIF read is
caught and logged by lines 32-34 and the image skipped (ok none); an
absent tag (get returns None at line 31) or a falsy empty tag is
skipped silently by the test at line 35 (also ok none, nothing is
logged); a tag that does not split into exactly two
whitespace-separated parts makes line 36 raise an uncaught ValueError,
fatal to the run (error). -/
def readImageStep (folderType : String) (img : ImageFile) : Except String (Option Props) :=
  match img.dateTakenTag with
  | none => Except.ok none
  | some dt =>
    if dt = "" then Except.ok none
    else
      match pySplit dt with
      | [d, t] => Except.ok (some ⟨d, t, img.path, img.pole, folderType⟩)
      | _ => Except.error ("ValueError: cannot unpack " ++ dt)

/-- The extraction loop over a list of images, appending the metadata
dicts in order; an uncaught error aborts the whole run. -/
def buildMetadata (folderType : String) : List ImageFile → Except String (List Props)
  | [] => Except.ok []
  | img :: rest =>
    match readImageStep folderType img with
    | Except.error e => Except.error e
    | Except.ok none => buildMetadata folderType rest
    | Except.ok (some p) =>
      match buildMetadata folderType rest with
      | Except.error e => Except.error e
      | Except.ok ps => Except.ok (p :: ps)

/-- An image whose tag was read but holds no whitespace. -/
def c8bad : ImageFile := ⟨"broken.jpg", "P1", some "2023:01:01"⟩

/-- C8 counterexample: an image whose timestamp was read but cannot be
parsed (no whitespace to split date from time) is fatal to the run,
because the unpacking at line 36 sits outside the try block. -/
theorem c8_parse_fatal_cex :
    buildMetadata "VISUAL" [c8bad] = Except.error "ValueError: cannot unpack 2023:01:01" := by
  rfl

/-- Skipping a read failure changes nothing else in the run. -/
theorem buildMetadata_skip (ft : String) (bad : ImageFile)
    (hbad : readImageStep ft bad = Except.ok none) (pre post : List ImageFile) :
    buildMetadata ft (pre ++ bad :: post) = buildMetadata ft (pre ++ post) := by
  induction pre with
  | nil =>
    simp only [List.nil_append]
    rw [buildMetadata, hbad]
  | cons img rest ih =>
    simp only [List.cons_append, buildMetadata, List.append_eq, ih]

/-- Inverting a successful extraction: the record came from a tag that
split into exactly its date and time parts. -/
theorem readImageStep_ok_some (ft : String) (img : ImageFile) (p : Props)
    (h : readImageStep ft img = Except.ok (some p)) :
    ∃ dt, img.dateTakenTag = some dt ∧ pySplit dt = [p.dateTaken, p.timeTaken] := by
  unfold readImageStep at h
  split at h
  · exact absurd h (by simp)
  · rename_i dt htag
    split at h
    · exact absurd h (by simp)
    · split at h
      · rename_i d t heq
        obtain rfl : (⟨d, t, img.path, img.pole, ft⟩ : Props) = p := by
          simpa using h
        exact ⟨dt, htag, by rw [heq]⟩
      · exact absurd h (by simp)

/-- Every record of a successful extraction run originates in an image
whose tag was read and split into that record's date and time. -/
theorem buildMetadata_sources (ft : String) (imgs : List ImageFile) :
    ∀ l, buildMetadata ft imgs = Except.ok l → ∀ p ∈ l,
      ∃ img ∈ imgs, ∃ dt, img.dateTakenTag = some dt ∧
        pySplit dt = [p.dateTaken, p.timeTaken] := by
  induction imgs with
  | nil =>
    intro l h p hp
    rw [buildMetadata] at h
    cases (show Except.ok ([] : List Props) = Except.ok l from h)
    simp at hp
  | cons img rest ih =>
    intro l h p hp
    rw [buildMetadata] at h
    rcases hstep : readImageStep ft img with e | op
    · rw [hstep] at h
      exact Except.noConfusion (show Except.error e = Except.ok l from h)
    · rw [hstep] at h
      rcases op with _ | q
      · obtain ⟨i, hi, hdt⟩ := ih l (show buildMetadata ft rest = Except.ok l from h) p hp
        exact ⟨i, List.mem_cons_of_mem _ hi, hdt⟩
      · rcases hrest : buildMetadata ft rest with e2 | ps
        · rw [hrest] at h
          exact Except.noConfusion (show Except.error e2 = Except.ok l from h)
        · rw [hrest] at h
          cases (show Except.ok (q :: ps) = Except.ok l from h)
          rcases List.mem_cons.mp hp with hpq | hpm
          · subst hpq
            obtain ⟨dt, hdt, hsp⟩ := readImageStep_ok_some ft img p hstep
            exact ⟨img, List.mem_cons_self img rest, dt, hdt, hsp⟩
          · obtain ⟨i, hi, hdt⟩ := ih ps hrest p hpm
            exact ⟨i, List.mem_cons_of_mem _ hi, hdt⟩

/-- C8 (amended): an image whose timestamp cannot be READ is excluded
from the metadata list and the run continues exactly as if the image
were not there; when the EXIF access raises, the failure is logged with
the file path and cause, while an absent or empty tag is skipped
silently. Every record of the resulting list carries a timestamp split
from a successfully read tag. (A tag that was read but does not split
into exactly two fields is, contrary to the original claim, fatal: see
the counterexample.) -/
theorem c8_extraction (ft : String) (bad : ImageFile)
    (hbad : readImageStep ft bad = Except.ok none) :
    (∀ pre post, buildMetadata ft (pre ++ bad :: post) = buildMetadata ft (pre ++ post)) ∧
      ∀ imgs l, buildMetadata ft imgs = Except.ok l → ∀ p ∈ l,
        ∃ img ∈ imgs, ∃ dt, img.dateTakenTag = some dt ∧
          pySplit dt = [p.dateTaken, p.timeTaken] :=
  ⟨buildMetadata_skip ft bad hbad, fun imgs => buildMetadata_sources ft imgs⟩

/-- Witness for c8_extraction at a concrete input: an image whose read
failed is skipped. -/
theorem c8_extraction_witness :
    buildMetadata "VISUAL" ([] ++ (⟨"x.jpg", "P1", none⟩ : ImageFile) :: []) =
      buildMetadata "VISUAL" ([] ++ []) :=
  (c8_extraction "VISUAL" ⟨"x.jpg", "P1", none⟩ (by rfl)).1 [] []

/-! CSV assembly of the two category reports, lines 126-146 (claim C9). -/

/-- An empty padding row: six empty cells, as appended by the while
loops at lines 130-134. -/
def emptyRow : List String := List.replicate 6 ""

/-- Pad a summary with empty rows up to length n (lines 130-134). -/
def padTo (rows : List (List String)) (n : Nat) : List (List String) :=
  rows ++ List.replicate (n - rows.length) emptyRow

/-- Lines 126-146: pad both summaries to the longer length, then write
row v plus two empty separator cells plus row t, pairwise. -/
def mergeRows (v t : List (List String)) : List (List String) :=
  List.zipWith (fun a b => a ++ ["", ""] ++ b)
    (padTo v (max v.length t.length)) (padTo t (max v.length t.length))

/-- Reading one cell of a zipWith of equal-length lists. -/
theorem getD_zipWith {α : Type} (f : α → α → α) (as bs : List α) (i : Nat) (d : α)
    (h1 : i < as.length) (h2 : i < bs.length) :
    (List.zipWith f as bs).getD i d = f (as.getD i d) (bs.getD i d) := by
  induction as generalizing bs i with
  | nil => simp at h1
  | cons a as ih =>
    cases bs with
    | nil => simp at h2
    | cons b bs =>
      cases i with
      | zero => rfl
      | succ i' =>
        simp only [List.zipWith_cons_cons, List.getD_cons_succ]
        exact ih bs i' (by simpa using h1) (by simpa using h2)

/-- Length of a padded summary. -/
theorem padTo_length (rows : List (List String)) (n : Nat) (h : rows.length ≤ n) :
    (padTo rows n).length = n := by
  simp [padTo]
  omega

/-- A cell of a padded summary: the original row below the original
length, an empty row above it. -/
theorem padTo_getD (rows : List (List String)) (n i : Nat) (hi : i < n) :
    (padTo rows n).getD i [] =
      if i < rows.length then rows.getD i [] else emptyRow := by
  by_cases h : i < rows.length
  · rw [if_pos h]
    exact List.getD_append _ _ _ _ h
  · rw [if_neg h]
    rw [padTo, List.getD_append_right _ _ _ _ (by omega)]
    rw [List.getD_eq_getElem?_getD, List.getElem?_replicate]
    rw [if_pos (by omega)]
    rfl

/-- C9: the merged output has one row per row of the longer summary,
and every output row is the corresponding visual row (or a six-cell
empty row beyond the visual length), two empty separator cells, and the
corresponding thermal row (or a six-cell empty row beyond the thermal
length). -/
theorem c9_merge (v t : List (List String)) :
    (mergeRows v t).length = max v.length t.length ∧
      ∀ i, i < max v.length t.length →
        (mergeRows v t).getD i [] =
          (if i < v.length then v.getD i [] else emptyRow) ++ ["", ""] ++
            (if i < t.length then t.getD i [] else emptyRow) := by
  have hv : (padTo v (max v.length t.length)).length = max v.length t.length :=
    padTo_length v _ (Nat.le_max_left _ _)
  have ht : (padTo t (max v.length t.length)).length = max v.length t.length :=
    padTo_length t _ (Nat.le_max_right _ _)
  constructor
  · rw [mergeRows, List.length_zipWith, hv, ht]
    omega
  · intro i hi
    rw [mergeRows, getD_zipWith _ _ _ i [] (by rw [hv]; exact hi) (by rw [ht]; exact hi)]
    rw [padTo_getD v _ i hi, padTo_getD t _ i hi]

/-- Witness for c9_merge: one visual row and two thermal rows. -/
theorem c9_merge_witness :
    (mergeRows [["a", "b", "c", "d", "e", "f"]]
        [["g", "h", "i", "j", "k", "l"], ["m", "n", "o", "p", "q", "r"]]).length =
      max 1 2 ∧ (1 < max 1 2) ∧
      (mergeRows [["a", "b", "c", "d", "e", "f"]]
          [["g", "h", "i", "j", "k", "l"], ["m", "n", "o", "p", "q", "r"]]).getD 1 [] =
        (if 1 < ([["a", "b", "c", "d", "e", "f"]] : List (List String)).length
          then ([["a", "b", "c", "d", "e", "f"]] : List (List String)).getD 1 []
          else emptyRow) ++ ["", ""] ++
          (if 1 < ([["g", "h", "i", "j", "k", "l"], ["m", "n", "o", "p", "q", "r"]] :
              List (List String)).length
            then ([["g", "h", "i", "j", "k", "l"], ["m", "n", "o", "p", "q", "r"]] :
              List (List String)).getD 1 []
            else emptyRow) := by
  refine ⟨by decide, by decide, ?_⟩
  exact (c9_merge [["a", "b", "c", "d", "e", "f"]]
    [["g", "h", "i", "j", "k", "l"], ["m", "n", "o", "p", "q", "r"]]).2 1 (by decide)

/-! Folder and image enumeration, lines 15-25 (claim C10). -/

mutual
/-- A directory tree: name, subdirectories, file names. Paths are lists
of components, mirroring os.path.join of the source. -/
inductive FSTree where
  | dir : String → FSForest → List String → FSTree
/-- A list of sibling directory trees. -/
inductive FSForest where
  | fnil : FSForest
  | fcons : FSTree → FSForest → FSForest
end

/-- The name of the root directory of a tree. -/
def FSTree.dname : FSTree → String
  | .dir n _ _ => n

/-- Names of the roots of a forest. -/
def forestNames : FSForest → List String
  | .fnil => []
  | .fcons t f => t.dname :: forestNames f

/-- The jpg test of line 18: f.lower().endswith of .jpg, on the
character list (ASCII lowercasing): the last four lowercased characters
are . j p g. -/
def isJpgName (f : String) : Bool :=
  (f.data.map Char.toLower).reverse.take 4 == ['g', 'p', 'j', '.']

mutual
/-- The folders list built by os.walk at lines 16-17: for every visited
directory, the joined paths of its subdirectories. The argument p is
the path of the visited directory itself; the root path is never
inserted. -/
def foldersOf (p : List String) : FSTree → List (List String)
  | .dir _ subs _ => (forestNames subs).map (fun nm => p ++ [nm]) ++ foldersOfF p subs
/-- foldersOf over the subtrees of a directory at path p. -/
def foldersOfF (p : List String) : FSForest → List (List String)
  | .fnil => []
  | .fcons t f => foldersOf (p ++ [t.dname]) t ++ foldersOfF p f
end

mutual
/-- The images list of line 18: every file anywhere under the tree
whose lowercased name ends in .jpg, as a joined path. -/
def imagesOf (p : List String) : FSTree → List (List String)
  | .dir _ subs files =>
    (files.filter isJpgName).map (fun f => p ++ [f]) ++ imagesOfF p subs
/-- imagesOf over the subtrees of a directory at path p. -/
def imagesOfF (p : List String) : FSForest → List (List String)
  | .fnil => []
  | .fcons t f => imagesOf (p ++ [t.dname]) t ++ imagesOfF p f
end

/-- Lines 21-25: the images actually opened are those whose directory
(the path without the file name) is one of the enumerated folders. -/
def processedImages (p : List String) (t : FSTree) : List (List String) :=
  (imagesOf p t).filter (fun img => decide (img.dropLast ∈ foldersOf p t))

mutual
/-- Every enumerated folder path is strictly longer than the path of
the directory it was found under. -/
theorem foldersOf_longer (p : List String) (t : FSTree) :
    ∀ x ∈ foldersOf p t, p.length < x.length := by
  cases t with
  | dir n subs files =>
    intro x hx
    rw [foldersOf] at hx
    rcases List.mem_append.mp hx with hm | hm
    · obtain ⟨nm, _, rfl⟩ := List.mem_map.mp hm
      simp
    · exact foldersOfF_longer p subs x hm
/-- Forest version of foldersOf_longer. -/
theorem foldersOfF_longer (p : List String) (f : FSForest) :
    ∀ x ∈ foldersOfF p f, p.length < x.length := by
  cases f with
  | fnil => intro x hx; simp [foldersOfF] at hx
  | fcons t f' =>
    intro x hx
    rw [foldersOfF] at hx
    rcases List.mem_append.mp hx with hm | hm
    · have h1 := foldersOf_longer (p ++ [t.dname]) t x hm
      simp at h1
      omega
    · exact foldersOfF_longer p f' x hm
end

mutual
/-- Every enumerated image path is a folder path joined with a file
name that passes the jpg test. -/
theorem imagesOf_shape (p : List String) (t : FSTree) :
    ∀ x ∈ imagesOf p t, ∃ q f, x = q ++ [f] ∧ isJpgName f = true := by
  cases t with
  | dir n subs files =>
    intro x hx
    rw [imagesOf] at hx
    rcases List.mem_append.mp hx with hm | hm
    · obtain ⟨f, hf, rfl⟩ := List.mem_map.mp hm
      exact ⟨p, f, rfl, (List.mem_filter.mp hf).2⟩
    · exact imagesOfF_shape p subs x hm
/-- Forest version of imagesOf_shape. -/
theorem imagesOfF_shape (p : List String) (f : FSForest) :
    ∀ x ∈ imagesOfF p f, ∃ q g, x = q ++ [g] ∧ isJpgName g = true := by
  cases f with
  | fnil => intro x hx; simp [imagesOfF] at hx
  | fcons t f' =>
    intro x hx
    rw [imagesOfF] at hx
    rcases List.mem_append.mp hx with hm | hm
    · exact imagesOf_shape (p ++ [t.dname]) t x hm
    · exact imagesOfF_shape p f' x hm
end

/-- C10: an image is opened only if its lowercased file name ends in
.jpg and its directory is a proper subfolder of the root: the root path
itself is never among the enumerated folders, so a file lying directly
in the root directory is never processed. -/
theorem c10_only_proper_subfolders (p : List String) (t : FSTree) :
    p ∉ foldersOf p t ∧
      ∀ img ∈ processedImages p t,
        isJpgName (img.getLastD "") = true ∧
          img.dropLast ∈ foldersOf p t ∧ img.dropLast ≠ p := by
  have hroot : p ∉ foldersOf p t := by
    intro hmem
    exact absurd (foldersOf_longer p t p hmem) (by omega)
  refine ⟨hroot, ?_⟩
  intro img himg
  obtain ⟨hin, hfold⟩ := List.mem_filter.mp himg
  have hfold' : img.dropLast ∈ foldersOf p t := of_decide_eq_true hfold
  obtain ⟨q, f, rfl, hjpg⟩ := imagesOf_shape p t img hin
  refine ⟨?_, hfold', ?_⟩
  · rw [List.getLastD_concat]
    exact hjpg
  · intro hEq
    rw [hEq] at hfold'
    exact hroot hfold'

/-- A concrete tree: the root holds one jpg directly and one subfolder
with a jpg (upper-case extension) and a text file. -/
def c10tree : FSTree :=
  .dir "root"
    (.fcons (.dir "P1" .fnil ["a.JPG", "b.txt"]) .fnil)
    ["c.jpg"]

/-- Witness for c10_only_proper_subfolders: in c10tree only the image
inside the subfolder P1 is processed, and it satisfies the properties;
the jpg lying directly in the root is not processed. -/
theorem c10_only_proper_subfolders_witness :
    (["r"] ++ ["P1", "a.JPG"]) ∈ processedImages ["r"] c10tree ∧
      (isJpgName ((["r", "P1", "a.JPG"] : List String).getLastD "") = true ∧
        (["r", "P1", "a.JPG"] : List String).dropLast ∈ foldersOf ["r"] c10tree ∧
        (["r", "P1", "a.JPG"] : List String).dropLast ≠ ["r"]) ∧
      (["r", "c.jpg"] : List String) ∉ processedImages ["r"] c10tree :=
  ⟨by decide,
    (c10_only_proper_subfolders ["r"] c10tree).2 ["r", "P1", "a.JPG"] (by decide),
    by decide⟩
